import Mathlib

/-!
Shallow embedding of the zbot iMessage bot (Python) in Lean 4, together with
theorems settling the frozen claims about its natural-language specification.

Source files embedded here:
  * `src/zbot/config.py`                   — constants
  * `src/zbot/bot/imessage_bot.py`         — response policy and poll loop
  * `src/zbot/utils/applescript_escaper.py`— AppleScript string escaping
  * `src/utils/phone_normalizer.py`        — phone-number normalization
  * `src/utils/message_decoder.py`         — message text extraction
  * `src/services/openai_client.py`        — completion client retry loop and history

Conventions of the embedding:
  * Python `str` is Lean `String` (Python indexing/length are by code points,
    matching Lean's `String.length`/`String.drop` semantics).
  * Python `bytes` is `List Nat` with entries < 256.
  * Wall-clock times (`time.time()` floats) are modelled as integers `ℤ`;
    every property proved about them is order-theoretic, so nothing depends
    on the discreteness of the model.
  * External effects (database rows, the NSUnarchiver structured decode, the
    OpenAI API) are inputs to the embedded functions: each cycle / attempt
    receives the outcome the external world would have produced.
  * Python exceptions are modelled with `Except`: a fallible external call is
    an `Except`-valued input, and `try/except` blocks are `match`es on it.
-/

namespace ZBot

/-! ## Python string primitives

Executable embeddings of the Python `str` methods the source uses, defined on
the underlying character list so that they reduce inside `decide`. -/

/-- The characters Python's `str.strip()` removes (ASCII whitespace). -/
def pySpace (c : Char) : Bool :=
  c = ' ' || c = '\t' || c = '\n' || c = '\r' || c = '\x0b' || c = '\x0c'

/-- Python `s.strip()`. -/
def pyStrip (s : String) : String :=
  ⟨((s.data.dropWhile pySpace).reverse.dropWhile pySpace).reverse⟩

/-- Python `s.lower()` (the source only lowercases ASCII trigger text). -/
def pyLower (s : String) : String :=
  ⟨s.data.map Char.toLower⟩

/-- Python `s.startswith(p)`. -/
def pyStartsWith (s p : String) : Bool :=
  p.data.isPrefixOf s.data

/-- Python `s[n:]` (by code point, like Lean's `String.drop`). -/
def pyDrop (s : String) (n : Nat) : String :=
  ⟨s.data.drop n⟩

/-- Python `len(s)` (code points). -/
def pyLen (s : String) : Nat :=
  s.data.length

/-! ## Configuration constants (`src/zbot/config.py`) -/

/-- Constant `BOT_PREFIX = "@zbot"` — the trigger marker. -/
def botTrigger : String := "@zbot"

/-- Constant `BOT_OUT_PREFIX = "🤖 "` — marker prepended to the bot's own outgoing replies. -/
def botOutMarker : String := "🤖 "

/-- Constant `COOLDOWN_SECONDS = 6`. -/
def COOLDOWN_SECONDS : ℤ := 6

/-- Constant `MAX_CONTEXT_MESSAGES = 20`. -/
def MAX_CONTEXT_MESSAGES : Nat := 20

/-! ## Response policy (`iMessageBot.should_respond`, `iMessageBot.extract_prompt`) -/

/-- Embedding of `iMessageBot.should_respond(self, msg_id, text, from_me)`.

The carried state `self.last_reply_time` and the call `time.time()` are the
explicit arguments `lastReplyTime` and `now`.  The Python body is a chain of
early `return False`s:
empty text; text starting with the outgoing marker; text whose lowercasing
does not start with the lowercased trigger; cooldown not yet elapsed. -/
def shouldRespond (msgId : Int) (fromMe : Int) (text : String)
    (lastReplyTime : ℤ) (now : ℤ) : Bool :=
  if text = "" then false
  else if pyStartsWith text botOutMarker then false
  else if ¬ (pyStartsWith (pyLower text) (pyLower botTrigger)) then false
  else if now - lastReplyTime < COOLDOWN_SECONDS then false
  else true

/-- Embedding of `iMessageBot.extract_prompt`: drop `len(BOT_PREFIX)` characters
from the front, then strip. -/
def extractPrompt (text : String) : String :=
  pyStrip (pyDrop text (pyLen botTrigger))

/-! ## AppleScript escaping (`src/zbot/utils/applescript_escaper.py`) -/

/-- Python `s.replace(old, new)` for a one-character `old` (the only form the
escaper uses): every occurrence of the character is replaced, left to right. -/
def pyReplaceChar (c : Char) (r : List Char) (l : List Char) : List Char :=
  l.flatMap (fun x => if x = c then r else [x])

/-- Embedding of `AppleScriptEscaper.escape`: replace `\` with `\\`, then `"`
with `\"`, then a newline with the two characters `\n`, in that order. -/
def escape (s : String) : String :=
  ⟨pyReplaceChar '\n' ['\\', 'n']
    (pyReplaceChar '"' ['\\', '"']
      (pyReplaceChar '\\' ['\\', '\\'] s.data))⟩

/-- The per-character code the three sequential replaces amount to. -/
def escChar (c : Char) : List Char :=
  if c = '\\' then ['\\', '\\']
  else if c = '"' then ['\\', '"']
  else if c = '\n' then ['\\', 'n']
  else [c]

/-- Left inverse of the escaping: read an escaped stream back. -/
def unesc : List Char → List Char
  | [] => []
  | c :: rest =>
    if c = '\\' then
      match rest with
      | [] => []
      | d :: rest2 => (if d = 'n' then '\n' else d) :: unesc rest2
    else c :: unesc rest

/-- Spec-side predicate: every double quote in the list is immediately preceded
by a backslash, given that `prev` is the character standing just before the
list. -/
def QuoteSafeFrom (prev : Char) : List Char → Prop
  | [] => True
  | c :: rest => (c = '"' → prev = '\\') ∧ QuoteSafeFrom c rest

/-! ## Phone normalization (`src/utils/phone_normalizer.py`) -/

/-- One character of the regex class `[\d\-\(\)\s]` (`\s` over ASCII is the
`pySpace` set). -/
def phoneBodyChar (c : Char) : Bool :=
  c.isDigit || c = '-' || c = '(' || c = ')' || pySpace c

/-- Embedding of the anchored regex match
`re.match(r"^\+?\d[\d\-\(\)\s]{6,}$", s)` used by `PhoneNormalizer.E164ISH`:
an optional `+`, a digit, then at least 6 further characters all drawn from
the class.  The input has been stripped before matching, so the `$` anchor is
plain end-of-string. -/
def e164ishMatch (s : String) : Bool :=
  match s.data with
  | '+' :: d :: rest => d.isDigit && decide (6 ≤ rest.length) && rest.all phoneBodyChar
  | d :: rest => d.isDigit && decide (6 ≤ rest.length) && rest.all phoneBodyChar
  | [] => false

/-- The shape stated by the spec's words, with the minimum number of trailing
characters left as a parameter: "`+`? digit, then ≥ `minExtra` more characters
drawn from {digit, `-`, `(`, `)`, space}".  The claim under test asserts the
minimum is 7; the source regex `{6,}` makes it 6. -/
def specPhoneShape (minExtra : Nat) (s : String) : Bool :=
  match s.data with
  | '+' :: d :: rest => d.isDigit && decide (minExtra ≤ rest.length) && rest.all phoneBodyChar
  | d :: rest => d.isDigit && decide (minExtra ≤ rest.length) && rest.all phoneBodyChar
  | [] => false

/-- Embedding of `PhoneNormalizer.normalize`: empty and non-matching inputs
yield `none`; otherwise all non-digits are removed (`re.sub(r"\D", "", phone)`
on the stripped string) and a `+`/`+1` prefix is chosen. -/
def normalizePhone (phone : String) : Option String :=
  if phone = "" then none
  else
    let p := pyStrip phone
    if ¬ e164ishMatch p then none
    else
      let digits := p.data.filter fun c => c.isDigit
      if digits.isEmpty then none
      else if digits.length = 10 then some ⟨'+' :: '1' :: digits⟩
      else if pyStartsWith p "+" then some ⟨'+' :: digits⟩
      else if digits.length = 11 && (digits.head? == some '1') then some ⟨'+' :: digits⟩
      else some ⟨'+' :: digits⟩

/-! ## Message decoding (`src/utils/message_decoder.py`) -/

/-- The `MessageDecoder.BLACKLIST` artifact strings. -/
def BLACKLIST : List String :=
  ["streamtyped", "NSAttributedString", "NSObject", "NSString",
   "__kIMMessagePartAttributeName"]

/-- The printable-ASCII test `32 <= b <= 126` of `_scan_printable`. -/
def printableByte (b : Nat) : Bool :=
  decide (32 ≤ b) && decide (b ≤ 126)

/-- The run-collecting loop of `_scan_printable`: `cur` is the current run,
accumulated in reverse; a run is flushed when a non-printable byte or the end
of the blob is reached and it has at least `minLen` bytes. -/
def scanRunsAux (minLen : Nat) : List Nat → List Nat → List (List Nat)
  | cur, [] => if minLen ≤ cur.length then [cur.reverse] else []
  | cur, b :: rest =>
    if printableByte b then scanRunsAux minLen (b :: cur) rest
    else if minLen ≤ cur.length then cur.reverse :: scanRunsAux minLen [] rest
    else scanRunsAux minLen [] rest

/-- The printable runs of length `≥ minLen` found in a blob. -/
def scanRuns (minLen : Nat) (blob : List Nat) : List (List Nat) :=
  scanRunsAux minLen [] blob

/-- Python `run.decode("utf-8", errors="ignore")` on a run of printable-ASCII bytes:
each byte in 32..126 is a valid one-byte UTF-8 sequence, so the permissive
decode maps bytes to characters one for one and never fails. -/
def decodeRun (r : List Nat) : String :=
  ⟨r.map Char.ofNat⟩

/-- Python `max(c :: cs, key=len)`: scans left to right, replacing the current
best only on a strictly greater length — so the first-encountered longest
element wins. -/
def pyMaxByLen (c : String) (cs : List String) : String :=
  cs.foldl (fun acc x => if pyLen acc < pyLen x then x else acc) c

/-- The surviving candidates of `_scan_printable`: each run decoded and
stripped, keeping those that are non-empty and not in the blacklist. -/
def scanCandidates (minLen : Nat) (blob : List Nat) : List String :=
  ((scanRuns minLen blob).map fun r => pyStrip (decodeRun r)).filter
    fun r => r ≠ "" && ¬ BLACKLIST.contains r

/-- Embedding of `MessageDecoder._scan_printable` (its `min_len` default is 4;
every caller uses the default). -/
def scanPrintable (minLen : Nat) (blob : List Nat) : String :=
  match scanCandidates minLen blob with
  | [] => ""
  | c :: cs => pyMaxByLen c cs

/-- What `NSUnarchiver.unarchiveObjectWithData_` hands back when it does not
raise: `stringAttr` is `str(obj.string())` when `hasattr(obj, "string")`
(`none` when the attribute is absent), `strRepr` is `str(obj)`. -/
structure UnarchivedObj where
  stringAttr : Option String
  strRepr : String

/-- Embedding of `MessageDecoder.decode_attributed_body`.  The external
unarchive call is the `Except`-valued input `unarchive`: `.error` is a raised
exception, absorbed by the `except Exception: pass` arm, after which control
falls through to the printable scan. -/
def decodeAttributedBody (blob : List Nat) (unarchive : Except String UnarchivedObj) : String :=
  if blob.isEmpty then ""
  else
    match unarchive with
    | .error _ => scanPrintable 4 blob
    | .ok obj =>
      let viaAttr : Option String :=
        match obj.stringAttr with
        | some s0 => if pyStrip s0 ≠ "" then some (pyStrip s0) else none
        | none => none
      match viaAttr with
      | some s => s
      | none =>
        let s := pyStrip obj.strRepr
        if s ≠ "" && s ≠ "(null)" then s
        else scanPrintable 4 blob

/-- A row of the `message` table as the bot reads it: identifier, own-message
flag, nullable text, nullable serialized `attributedBody` blob. -/
structure Row where
  msg_id : Int
  is_from_me : Int
  text : Option String
  attributedBody : Option (List Nat)

/-- Embedding of `MessageDecoder.extract_text`: the stripped `text` column when
non-empty, else the decoded blob when present and non-empty (Python's `if
blob:` is false for both `None` and `b""`), else the empty string. -/
def extractText (row : Row) (unarchive : Except String UnarchivedObj) : String :=
  let txt := pyStrip (row.text.getD "")
  if txt ≠ "" then txt
  else
    match row.attributedBody with
    | some blob => if ¬ blob.isEmpty then decodeAttributedBody blob unarchive else ""
    | none => ""

/-! ## OpenAI client (`src/services/openai_client.py`) -/

/-- One conversation turn, `{"role": ..., "content": ...}`. -/
structure Msg where
  role : String
  content : String
deriving DecidableEq

/-- Embedding of `OpenAIClient.set_system_message`: replace the head when it
is a system turn, else insert the system turn at the front. -/
def setSystemMessage (history : List Msg) (content : String) : List Msg :=
  match history with
  | m :: rest =>
    if m.role = "system" then ⟨"system", content⟩ :: rest
    else ⟨"system", content⟩ :: m :: rest
  | [] => [⟨"system", content⟩]

/-- Embedding of `OpenAIClient.trim_history`: split off a leading system turn
if there is one, keep only the last `maxMessages` of the remaining turns
(`rest[-max_messages:]`, here for the positive `maxMessages` the bot always
uses), and reassemble. -/
def trimHistory (history : List Msg) (maxMessages : Nat) : List Msg :=
  let system := match history with
    | m :: _ => if m.role = "system" then [m] else []
    | [] => []
  let rest := if system.isEmpty then history else history.drop 1
  let rest := if maxMessages < rest.length then rest.drop (rest.length - maxMessages) else rest
  system ++ rest

/-- One API call's outcome inside `OpenAIClient.chat`'s `while True` loop:
a successful completion (whose `message.content` may be `None`), a
`RateLimitError` (with or without `"insufficient_quota"` in its repr), an
`AuthenticationError`, or any other exception. -/
inductive ApiOutcome
  | success (content : Option String)
  | rateLimited (insufficientQuota : Bool)
  | authFailed
  | otherError

/-- The reply assembled from a successful response:
`(reply or "").strip() or "…"`. -/
def replyOf (content : Option String) : String :=
  let r := pyStrip (content.getD "")
  if r = "" then "…" else r

/-- The string `"I'm rate-limited — try again in a minute."`. -/
def RATE_LIMIT_FALLBACK : String := "I\x27m rate-limited — try again in a minute."

/-- The string `"OpenAI quota/billing issue — check API billing."`. -/
def QUOTA_FALLBACK : String := "OpenAI quota/billing issue — check API billing."

/-- The string `"OpenAI auth failed. Check OPENAI_API_KEY."`. -/
def AUTH_FALLBACK : String := "OpenAI auth failed. Check OPENAI_API_KEY."

/-- The string `"Something went wrong calling OpenAI."`. -/
def OTHER_FALLBACK : String := "Something went wrong calling OpenAI."

/-- The retry loop of `OpenAIClient.chat` from a given attempt counter
(Python increments `attempt` to 1 before the first call); `outcomes n` is what
the API yields on attempt `n`.  Returns the reply string and the history after
the call. -/
def chatLoop (outcomes : Nat → ApiOutcome) (history : List Msg) (attempt : Nat) :
    String × List Msg :=
  match outcomes attempt with
  | .success c =>
    let reply := replyOf c
    (reply, trimHistory (history ++ [⟨"assistant", reply⟩]) MAX_CONTEXT_MESSAGES)
  | .rateLimited quota =>
    if quota then (QUOTA_FALLBACK, history)
    else if 8 ≤ attempt then (RATE_LIMIT_FALLBACK, history)
    else chatLoop outcomes history (attempt + 1)
  | .authFailed => (AUTH_FALLBACK, history)
  | .otherError => (OTHER_FALLBACK, history)
termination_by 8 - attempt
decreasing_by omega

/-- Embedding of `OpenAIClient.chat`: append the user turn, trim, then run the
retry loop starting at attempt 1. -/
def chat (outcomes : Nat → ApiOutcome) (history : List Msg) (userText : String) :
    String × List Msg :=
  chatLoop outcomes (trimHistory (history ++ [⟨"user", userText⟩]) MAX_CONTEXT_MESSAGES) 1

/-- Python `rest[-n:]` for positive `n` (the trimming slice): the last `n`
elements when there are more than `n`, the whole list otherwise. -/
def keepLast (r : List Msg) (n : Nat) : List Msg :=
  if n < r.length then r.drop (r.length - n) else r

/-- The turns that are not system turns. -/
def nonSystem (l : List Msg) : List Msg :=
  l.filter fun m => m.role ≠ "system"

/-- The reachable-history invariant: a system turn can only stand at the head
(`set_system_message` inserts or replaces at index 0 and `chat` appends only
user/assistant turns). -/
def HistInv (l : List Msg) : Prop :=
  ∀ m ∈ l.drop 1, m.role ≠ "system"

/-! ## Poll loop (`iMessageBot.run`) -/

/-- The mutable bot state the loop carries: `last_seen_id` (the Conversation
Cursor), `last_debug_id` (observational only) and `last_reply_time` (the
Cooldown Timer). -/
structure BotState where
  lastSeen : Option Int
  lastDebug : Option Int
  lastReply : ℤ
deriving DecidableEq

/-- What the external world supplies to one cycle of the loop: the fetched
rows (newest first, as `fetch_messages` orders them), the unarchive outcome
for the newest row's blob, the clock value at the `should_respond` check
(`tEval`) and at the `last_reply_time = time.time()` assignment just before
sending (`tSend`), and whether the send succeeds (`sendOk` — the loop ignores
`send_reply`'s boolean result, so this input never influences the state). -/
structure CycleInput where
  rows : List Row
  unarchive : Except String UnarchivedObj
  tEval : ℤ
  tSend : ℤ
  sendOk : Bool

/-- What one cycle did: nothing (no rows, or the newest row was already seen),
or the newest row was evaluated by the response policy, with `sent` recording
whether a reply was generated and a send attempted. -/
inductive CycleEvent
  | idle
  | evaluated (msgId : Int) (sent : Bool)
deriving DecidableEq

/-- One cycle of the `while True` body of `iMessageBot.run`: inspect only the
newest fetched row; update the debug cursor; skip it if its identifier is not
above the Conversation Cursor; otherwise advance the cursor unconditionally,
evaluate the response policy, and on acceptance set the Cooldown Timer to the
clock value just before attempting the send. -/
def stepCycle (s : BotState) (inp : CycleInput) : BotState × CycleEvent :=
  match inp.rows with
  | [] => (s, .idle)
  | newest :: _ =>
    let msgId := newest.msg_id
    let text := extractText newest inp.unarchive
    let s0 : BotState := { s with lastDebug := some msgId }
    if (match s.lastSeen with | some c => decide (msgId ≤ c) | none => false) then
      (s0, .idle)
    else
      let s1 : BotState := { s0 with lastSeen := some msgId }
      if shouldRespond msgId newest.is_from_me text s.lastReply inp.tEval then
        ({ s1 with lastReply := inp.tSend }, .evaluated msgId true)
      else
        (s1, .evaluated msgId false)

/-- The loop, run over a finite schedule of cycle inputs, collecting the event
of each cycle. -/
def runCycles (s : BotState) : List CycleInput → BotState × List CycleEvent
  | [] => (s, [])
  | inp :: rest =>
    let r1 := stepCycle s inp
    let r2 := runCycles r1.1 rest
    (r2.1, r1.2 :: r2.2)

/-- The identifiers of the messages the loop evaluated, in order. -/
def evaluatedIds : List CycleEvent → List Int
  | [] => []
  | .evaluated i _ :: rest => i :: evaluatedIds rest
  | .idle :: rest => evaluatedIds rest

/-- The clock values at which replies were sent along a schedule. -/
def sendTimes (s : BotState) : List CycleInput → List ℤ
  | [] => []
  | inp :: rest =>
    (match (stepCycle s inp).2 with
      | .evaluated _ true => [inp.tSend]
      | _ => []) ++ sendTimes (stepCycle s inp).1 rest

/-- Order on the cursor: `none` (unset) is below everything. -/
def cursorLE : Option Int → Option Int → Prop
  | none, _ => True
  | some a, some b => a ≤ b
  | some _, none => False

/-- A monotone clock along a schedule, starting no earlier than `t`: in each
cycle the `should_respond` check happens before the pre-send timestamp, and
cycles run sequentially. -/
def timesMono : ℤ → List CycleInput → Bool
  | _, [] => true
  | t, inp :: rest =>
    decide (t ≤ inp.tEval) && decide (inp.tEval ≤ inp.tSend) && timesMono inp.tSend rest

end ZBot

namespace ZBot

/-! ### Helper lemmas about the AppleScript escaper -/

theorem replace_chain_eq (l : List Char) :
    pyReplaceChar '\n' ['\\', 'n'] (pyReplaceChar '"' ['\\', '"']
      (pyReplaceChar '\\' ['\\', '\\'] l)) = l.flatMap escChar := by
  induction l with
  | nil => rfl
  | cons x xs ih =>
    by_cases h1 : x = '\\'
    · subst h1; simpa [pyReplaceChar, escChar] using ih
    · by_cases h2 : x = '"'
      · subst h2; simpa [pyReplaceChar, escChar] using ih
      · by_cases h3 : x = '\n'
        · subst h3; simpa [pyReplaceChar, escChar] using ih
        · simpa [pyReplaceChar, escChar, h1, h2, h3] using ih

theorem escape_data (s : String) : (escape s).data = s.data.flatMap escChar :=
  replace_chain_eq s.data

theorem unesc_cons_backslash (d : Char) (rest : List Char) :
    unesc ('\\' :: d :: rest) = (if d = 'n' then '\n' else d) :: unesc rest :=
  rfl

theorem unesc_cons_plain (c : Char) (rest : List Char) (h : c ≠ '\\') :
    unesc (c :: rest) = c :: unesc rest := by
  conv_lhs => rw [unesc.eq_def]
  simp only [if_neg h]

theorem unesc_flatMap_escChar (l : List Char) :
    unesc (l.flatMap escChar) = l := by
  induction l with
  | nil => rfl
  | cons x xs ih =>
    by_cases h1 : x = '\\'
    · subst h1; simpa [escChar, unesc_cons_backslash] using ih
    · by_cases h2 : x = '"'
      · subst h2; simpa [escChar, unesc_cons_backslash] using ih
      · by_cases h3 : x = '\n'
        · subst h3; simpa [escChar, unesc_cons_backslash] using ih
        · rw [List.flatMap_cons, escChar, if_neg h1, if_neg h2, if_neg h3,
            List.singleton_append, unesc_cons_plain x _ h1, ih]

theorem newline_not_mem_escChar (c : Char) : '\n' ∉ escChar c := by
  by_cases h1 : c = '\\'
  · subst h1; decide
  · by_cases h2 : c = '"'
    · subst h2; decide
    · by_cases h3 : c = '\n'
      · subst h3; decide
      · simp [escChar, h1, h2, h3]
        exact fun h => h3 h.symm

theorem quoteSafeFrom_flatMap (l : List Char) (prev : Char) :
    QuoteSafeFrom prev (l.flatMap escChar) := by
  induction l generalizing prev with
  | nil => trivial
  | cons x xs ih =>
    by_cases h1 : x = '\\'
    · subst h1
      exact ⟨fun h => absurd h (by decide), fun h => absurd h (by decide), ih '\\'⟩
    · by_cases h2 : x = '"'
      · subst h2
        exact ⟨fun h => absurd h (by decide), fun _ => rfl, ih '"'⟩
      · by_cases h3 : x = '\n'
        · subst h3
          exact ⟨fun h => absurd h (by decide), fun h => absurd h (by decide), ih 'n'⟩
        · simp only [escChar, if_neg h1, if_neg h2, if_neg h3, List.flatMap_cons,
            List.singleton_append]
          exact ⟨fun h => absurd h h2, ih x⟩

theorem quoteSafeFrom_getD (l : List Char) (prev : Char)
    (h : QuoteSafeFrom prev l) (i : Nat) (hq : l.getD i ' ' = '"') :
    (i = 0 → prev = '\\') ∧ (0 < i → l.getD (i - 1) ' ' = '\\') := by
  induction l generalizing prev i with
  | nil => simp [List.getD] at hq
  | cons c rest ih =>
    obtain ⟨hc, hrest⟩ := h
    cases i with
    | zero =>
      refine ⟨fun _ => hc ?_, fun h0 => absurd h0 (by simp)⟩
      simpa using hq
    | succ j =>
      have hq' : rest.getD j ' ' = '"' := by simpa using hq
      have := ih c hrest j hq'
      refine ⟨fun h => by simp at h, fun _ => ?_⟩
      cases j with
      | zero => simpa using this.1 rfl
      | succ k => simpa using this.2 (Nat.succ_pos k)

theorem escape_injective_list (a b : List Char)
    (h : a.flatMap escChar = b.flatMap escChar) : a = b := by
  have := congrArg unesc h
  rwa [unesc_flatMap_escChar, unesc_flatMap_escChar] at this

/-! ### Claim theorems: response policy and escaping -/

/-- **C2**: `should_respond` returns `true` exactly when the text is non-empty,
does not start with the outgoing marker `"🤖 "`, its lowercasing starts with the
lowercased trigger `"@zbot"`, and the time elapsed since the last reply is at
least `COOLDOWN_SECONDS`; and the accepted prompt is the text with the
trigger's character length (5) dropped from the front and then stripped, so
`"@zbot hello"` yields `"hello"`. -/
theorem C2_should_respond_iff (msgId fromMe : Int) (text : String)
    (lastReplyTime now : ℤ) :
    (shouldRespond msgId fromMe text lastReplyTime now = true ↔
      (text ≠ "" ∧
       pyStartsWith text botOutMarker = false ∧
       pyStartsWith (pyLower text) (pyLower botTrigger) = true ∧
       COOLDOWN_SECONDS ≤ now - lastReplyTime)) ∧
    extractPrompt "@zbot hello" = "hello" ∧
    (∀ t : String, extractPrompt t = pyStrip (pyDrop t 5)) := by
  refine ⟨?_, by decide, fun t => rfl⟩
  unfold shouldRespond
  split_ifs with h1 h2 h3 h4 <;>
    simp_all [not_lt, le_sub_iff_add_le, sub_lt_iff_lt_add]

/-- **C9**: the `from_me` flag is never consulted by `should_respond`: for every
fixed text, cooldown state and time, the decision is identical for
`from_me = 0` and `from_me = 1`; in particular an operator-authored trigger
message (flag 1) without the outgoing marker is accepted exactly like a remote
one. -/
theorem C9_from_me_not_consulted :
    (∀ (msgId : Int) (text : String) (lastReplyTime now : ℤ) (fm fm' : Int),
        shouldRespond msgId fm text lastReplyTime now =
          shouldRespond msgId fm' text lastReplyTime now) ∧
    shouldRespond 42 1 "@zbot status" 0 100 = true ∧
    shouldRespond 42 0 "@zbot status" 0 100 = true :=
  ⟨fun _ _ _ _ _ _ => rfl, by decide, by decide⟩

/-- **C10**: `AppleScriptEscaper.escape` produces a string with no literal
newline, in which every double quote is immediately preceded by a backslash,
and it is injective — so message text cannot close the AppleScript string
literal it is spliced into. -/
theorem C10_escape_safe :
    (∀ s : String, '\n' ∉ (escape s).data) ∧
    (∀ (s : String) (i : Nat), (escape s).data.getD i ' ' = '"' →
        0 < i ∧ (escape s).data.getD (i - 1) ' ' = '\\') ∧
    Function.Injective escape := by
  refine ⟨?_, ?_, ?_⟩
  · intro s hmem
    rw [escape_data] at hmem
    obtain ⟨c, -, hc⟩ := List.mem_flatMap.mp hmem
    exact newline_not_mem_escChar c hc
  · intro s i hq
    rw [escape_data] at hq
    have hsafe := quoteSafeFrom_flatMap s.data 'a'
    have h := quoteSafeFrom_getD _ 'a' hsafe i hq
    have hi : 0 < i := by
      rcases Nat.eq_zero_or_pos i with h0 | h0
      · exact absurd (h.1 h0) (by decide)
      · exact h0
    exact ⟨hi, by rw [escape_data]; exact h.2 hi⟩
  · intro a b hab
    have hdata : a.data.flatMap escChar = b.data.flatMap escChar := by
      have := congrArg String.data hab
      rwa [escape_data, escape_data] at this
    have := escape_injective_list a.data b.data hdata
    cases a; cases b; exact congrArg String.mk this

/-! ### Claim theorems: phone normalization -/

/-- **C4** (counterexample): the eight-character all-digit input `"15551234"`
is not rejected by `normalize` — it matches the source regex (a digit followed
by 7 ≥ 6 class characters) and is returned as `"+15551234"`, contradicting the
claim that it returns nothing. -/
theorem C4_counterexample_15551234 :
    normalizePhone "15551234" = some "+15551234" := by
  decide

/-- **C4** (amended): `normalize` returns `none` for every input whose
stripped form fails the shape "optional `+`, a digit, then at least **6** more
characters drawn from digits, `-`, `(`, `)`, space" — the source regex bound
is `{6,}`, not the claimed 7 — and the regex match agrees with that shape
everywhere.  `"15551234"` (eight digits) satisfies the shape — indeed it even
satisfies the claim's own "≥ 7 more characters" shape, so the claimed
rejection was inconsistent — and is normalized to `"+15551234"`.  The true
all-digit boundary: seven digits are accepted, six are rejected. -/
theorem C4_shape_gate :
    (∀ s : String, specPhoneShape 6 (pyStrip s) = false → normalizePhone s = none) ∧
    (∀ s : String, e164ishMatch s = specPhoneShape 6 s) ∧
    normalizePhone "15551234" = some "+15551234" ∧
    (specPhoneShape 6 "15551234" = true ∧ specPhoneShape 7 "15551234" = true) ∧
    (normalizePhone "1234567" = some "+1234567" ∧ normalizePhone "123456" = none) := by
  refine ⟨?_, fun s => rfl, by decide, by decide, by decide⟩
  intro s h
  have hm : e164ishMatch (pyStrip s) = false := h
  unfold normalizePhone
  by_cases h0 : s = ""
  · simp [h0]
  · simp [h0, hm]

/-! ### Helper lemmas: the printable scan -/

theorem modifyHead_id (l : List (List Nat)) :
    l.modifyHead (fun r => r) = l := by
  cases l <;> simp [List.modifyHead]

/-- The run-collecting loop, related to `List.splitOnP`: starting with a
pending (reversed) run `cur`, it produces exactly the maximal printable chunks
of `cur.reverse ++ bs`, filtered to length ≥ `minLen`. -/
theorem scanRunsAux_eq_splitOnP (minLen : Nat) (bs : List Nat) : ∀ cur : List Nat,
    scanRunsAux minLen cur bs =
      ((bs.splitOnP fun b => !printableByte b).modifyHead fun r => cur.reverse ++ r).filter
        fun r => minLen ≤ r.length := by
  induction bs with
  | nil =>
    intro cur
    by_cases h : minLen ≤ cur.length <;>
      simp [scanRunsAux, List.splitOnP_nil, List.modifyHead, List.filter, h]
  | cons b rest ih =>
    intro cur
    by_cases hb : printableByte b = true
    · rw [show scanRunsAux minLen cur (b :: rest) = scanRunsAux minLen (b :: cur) rest by
        simp [scanRunsAux, hb]]
      rw [ih (b :: cur), List.splitOnP_cons]
      simp only [hb, Bool.not_true, Bool.false_eq_true, if_false]
      cases hsp : rest.splitOnP fun b => !printableByte b with
      | nil => simp [List.modifyHead]
      | cons r t => simp [List.modifyHead, List.reverse_cons, List.append_assoc]
    · have hb' : printableByte b = false := by
        revert hb; cases printableByte b <;> simp
      rw [show scanRunsAux minLen cur (b :: rest) =
          (if minLen ≤ cur.length then cur.reverse :: scanRunsAux minLen [] rest
           else scanRunsAux minLen [] rest) by
        simp [scanRunsAux, hb']]
      rw [List.splitOnP_cons]
      simp only [hb', Bool.not_false, if_true, List.modifyHead_cons]
      rw [ih []]
      simp only [List.reverse_nil, List.nil_append, List.append_nil]
      rw [modifyHead_id, List.filter_cons]
      by_cases hc : minLen ≤ cur.length
      · simp [hc, List.length_reverse]
      · simp [hc, List.length_reverse]

/-- Lemma: `scanRuns` produces exactly the printable-ASCII chunks of the blob
(`splitOnP` at non-printable bytes yields the maximal runs between them) that
have at least `minLen` bytes. -/
theorem scanRuns_eq_splitOnP (minLen : Nat) (blob : List Nat) :
    scanRuns minLen blob =
      (blob.splitOnP fun b => !printableByte b).filter fun r => minLen ≤ r.length := by
  rw [scanRuns, scanRunsAux_eq_splitOnP]
  simp only [List.reverse_nil, List.nil_append]
  rw [modifyHead_id]

/-- Python `max(candidates, key=len)`: the result is an element of the
list; everything strictly before its occurrence is strictly shorter, and
nothing anywhere is longer — the first-encountered longest element. -/
theorem pyMaxByLen_spec (cs : List String) : ∀ c : String,
    ∃ pre post, c :: cs = pre ++ pyMaxByLen c cs :: post ∧
      (∀ y ∈ pre, pyLen y < pyLen (pyMaxByLen c cs)) ∧
      (∀ y ∈ post, pyLen y ≤ pyLen (pyMaxByLen c cs)) ∧
      (∀ y ∈ c :: cs, pyLen y ≤ pyLen (pyMaxByLen c cs)) := by
  induction cs with
  | nil =>
    intro c
    exact ⟨[], [], rfl, by simp, by simp, by simp [pyMaxByLen]⟩
  | cons x xs ih =>
    intro c
    by_cases hx : pyLen c < pyLen x
    · have hstep : pyMaxByLen c (x :: xs) = pyMaxByLen x xs := by
        simp [pyMaxByLen, hx]
      obtain ⟨pre, post, hdec, hpre, hpost, hmax⟩ := ih x
      refine ⟨c :: pre, post, ?_, ?_, ?_, ?_⟩
      · rw [hstep, List.cons_append, ← hdec]
      · intro y hy
        rw [hstep]
        rcases List.mem_cons.mp hy with rfl | hy'
        · exact lt_of_lt_of_le hx (hmax x (List.mem_cons_self x xs))
        · exact hpre y hy'
      · intro y hy; rw [hstep]; exact hpost y hy
      · intro y hy
        rw [hstep]
        rcases List.mem_cons.mp hy with rfl | hy'
        · exact le_of_lt (lt_of_lt_of_le hx (hmax x (List.mem_cons_self x xs)))
        · exact hmax y hy'
    · have hstep : pyMaxByLen c (x :: xs) = pyMaxByLen c xs := by
        simp [pyMaxByLen, hx]
      have hxc : pyLen x ≤ pyLen c := le_of_not_lt hx
      obtain ⟨pre, post, hdec, hpre, hpost, hmax⟩ := ih c
      cases pre with
      | nil =>
        simp only [List.nil_append] at hdec
        injection hdec with hM hpostEq
        refine ⟨[], x :: xs, ?_, by simp, ?_, ?_⟩
        · rw [hstep, List.nil_append, ← hM]
        · intro y hy
          rw [hstep, ← hM]
          rcases List.mem_cons.mp hy with rfl | hy'
          · exact hxc
          · exact le_trans (hmax y (List.mem_cons_of_mem c (hpostEq ▸ hy'))) (hM ▸ le_refl _)
        · intro y hy
          rw [hstep, ← hM]
          rcases List.mem_cons.mp hy with rfl | hy'
          · exact le_refl _
          · rcases List.mem_cons.mp hy' with rfl | hy''
            · exact hxc
            · exact le_trans (hmax y (List.mem_cons_of_mem c hy'')) (hM ▸ le_refl _)
      | cons p ps =>
        rw [List.cons_append] at hdec
        injection hdec with hpc hxsEq
        subst hpc
        have hcM : pyLen c < pyLen (pyMaxByLen c xs) :=
          hpre c (List.mem_cons_self c ps)
        refine ⟨c :: x :: ps, post, ?_, ?_, ?_, ?_⟩
        · rw [hstep, List.cons_append, List.cons_append, ← hxsEq]
        · intro y hy
          rw [hstep]
          rcases List.mem_cons.mp hy with rfl | hy'
          · exact hcM
          · rcases List.mem_cons.mp hy' with rfl | hy''
            · exact lt_of_le_of_lt hxc hcM
            · exact hpre y (List.mem_cons_of_mem c hy'')
        · intro y hy; rw [hstep]; exact hpost y hy
        · intro y hy
          rw [hstep]
          rcases List.mem_cons.mp hy with rfl | hy'
          · exact le_of_lt hcM
          · rcases List.mem_cons.mp hy' with rfl | hy''
            · exact le_of_lt (lt_of_le_of_lt hxc hcM)
            · exact hmax y (List.mem_cons_of_mem c hy'')

/-- Every run the scan collects has at least `minLen` bytes, all printable. -/
theorem scanRunsAux_mem (minLen : Nat) (bs : List Nat) : ∀ cur : List Nat,
    (∀ b ∈ cur, printableByte b = true) →
    ∀ r ∈ scanRunsAux minLen cur bs,
      minLen ≤ r.length ∧ ∀ b ∈ r, printableByte b = true := by
  induction bs with
  | nil =>
    intro cur hcur r hr
    by_cases h : minLen ≤ cur.length
    · simp only [scanRunsAux, if_pos h, List.mem_singleton] at hr
      subst hr
      exact ⟨by simpa using h, fun b hb => hcur b (List.mem_reverse.mp hb)⟩
    · simp [scanRunsAux, if_neg h] at hr
  | cons b rest ih =>
    intro cur hcur r hr
    by_cases hb : printableByte b = true
    · rw [show scanRunsAux minLen cur (b :: rest) = scanRunsAux minLen (b :: cur) rest by
        simp [scanRunsAux, hb]] at hr
      refine ih (b :: cur) ?_ r hr
      intro x hx
      rcases List.mem_cons.mp hx with rfl | hx'
      · exact hb
      · exact hcur x hx'
    · have hb' : printableByte b = false := by revert hb; cases printableByte b <;> simp
      rw [show scanRunsAux minLen cur (b :: rest) =
          (if minLen ≤ cur.length then cur.reverse :: scanRunsAux minLen [] rest
           else scanRunsAux minLen [] rest) by simp [scanRunsAux, hb']] at hr
      by_cases hc : minLen ≤ cur.length
      · rw [if_pos hc] at hr
        rcases List.mem_cons.mp hr with rfl | hr'
        · exact ⟨by simpa using hc, fun x hx => hcur x (List.mem_reverse.mp hx)⟩
        · exact ih [] (by simp) r hr'
      · rw [if_neg hc] at hr
        exact ih [] (by simp) r hr

/-! ### Claim theorems: message decoding -/

/-- **C5**: `extract_text` returns the stripped raw text field whenever it is
non-empty; with the text field unusable it returns `""` when the blob is
absent or empty, and otherwise — when the structured decode raises or yields
nothing usable — it returns the printable scan's result.  The scan collects
exactly the maximal printable runs of length ≥ 4 (`splitOnP` at non-printable
bytes), and the returned candidate is the first-encountered longest survivor,
`""` when none survive. -/
theorem C5_extract_text_spec :
    (∀ (row : Row) (u : Except String UnarchivedObj) (t : String),
        row.text = some t → pyStrip t ≠ "" → extractText row u = pyStrip t) ∧
    (∀ (row : Row) (u : Except String UnarchivedObj),
        pyStrip (row.text.getD "") = "" →
        (row.attributedBody = none ∨ row.attributedBody = some []) →
        extractText row u = "") ∧
    (∀ (row : Row) (blob : List Nat) (e : String),
        pyStrip (row.text.getD "") = "" → row.attributedBody = some blob →
        blob ≠ [] → extractText row (.error e) = scanPrintable 4 blob) ∧
    (∀ (row : Row) (blob : List Nat) (obj : UnarchivedObj),
        pyStrip (row.text.getD "") = "" → row.attributedBody = some blob →
        blob ≠ [] →
        (∀ s0, obj.stringAttr = some s0 → pyStrip s0 = "") →
        (pyStrip obj.strRepr = "" ∨ pyStrip obj.strRepr = "(null)") →
        extractText row (.ok obj) = scanPrintable 4 blob) ∧
    (∀ blob : List Nat, scanRuns 4 blob =
        (blob.splitOnP fun b => !printableByte b).filter fun r => 4 ≤ r.length) ∧
    (∀ (blob : List Nat) (r : List Nat), r ∈ scanRuns 4 blob →
        4 ≤ r.length ∧ ∀ b ∈ r, printableByte b = true) ∧
    (∀ blob : List Nat, scanCandidates 4 blob = [] → scanPrintable 4 blob = "") ∧
    (∀ blob : List Nat, scanCandidates 4 blob ≠ [] →
        ∃ pre post, scanCandidates 4 blob = pre ++ scanPrintable 4 blob :: post ∧
          (∀ y ∈ pre, pyLen y < pyLen (scanPrintable 4 blob)) ∧
          (∀ y ∈ scanCandidates 4 blob, pyLen y ≤ pyLen (scanPrintable 4 blob))) := by
  refine ⟨?_, ?_, ?_, ?_, fun blob => scanRuns_eq_splitOnP 4 blob,
    fun blob => scanRunsAux_mem 4 blob [] (by simp), ?_, ?_⟩
  · intro row u t ht hne
    simp [extractText, ht, hne]
  · intro row u htxt hb
    rcases hb with hb | hb <;> simp [extractText, htxt, hb]
  · intro row blob e htxt hb hblob
    simp [extractText, htxt, hb, decodeAttributedBody, List.isEmpty_iff, hblob]
  · intro row blob obj htxt hb hblob hattr hrepr
    have hbody : decodeAttributedBody blob (.ok obj) = scanPrintable 4 blob := by
      rw [decodeAttributedBody, if_neg (by simpa [List.isEmpty_iff] using hblob)]
      have hvia : (match obj.stringAttr with
          | some s0 => if pyStrip s0 ≠ "" then some (pyStrip s0) else none
          | none => none) = (none : Option String) := by
        cases h : obj.stringAttr with
        | none => rfl
        | some s0 => simp [hattr s0 h]
      rw [hvia]
      rcases hrepr with h | h <;> simp [h]
    simp [extractText, htxt, hb, List.isEmpty_iff, hblob, hbody]
  · intro blob h
    simp [scanPrintable, h]
  · intro blob h
    rcases hc : scanCandidates 4 blob with _ | ⟨c, cs⟩
    · exact absurd hc h
    · obtain ⟨pre, post, hdec, hpre, -, hmax⟩ := pyMaxByLen_spec cs c
      refine ⟨pre, post, ?_, ?_, ?_⟩
      · rw [show scanPrintable 4 blob = pyMaxByLen c cs by simp [scanPrintable, hc]]
        exact hdec
      · intro y hy
        rw [show scanPrintable 4 blob = pyMaxByLen c cs by simp [scanPrintable, hc]]
        exact hpre y hy
      · intro y hy
        rw [show scanPrintable 4 blob = pyMaxByLen c cs by simp [scanPrintable, hc]]
        exact hmax y (hc ▸ hy)

/-- **C6**: no decode path raises: a raised unarchive exception is absorbed
and control falls through to the printable scan (itself a total function —
runs of bytes in 32..126 decode without error); an empty or absent blob and a
scan with no surviving candidates degrade to the empty string. -/
theorem C6_decode_total :
    (∀ (blob : List Nat) (e : String),
        decodeAttributedBody blob (.error e) =
          if blob.isEmpty then "" else scanPrintable 4 blob) ∧
    (∀ u : Except String UnarchivedObj, decodeAttributedBody [] u = "") ∧
    (∀ (row : Row) (e : String),
        pyStrip (row.text.getD "") = "" →
        (∀ blob, row.attributedBody = some blob → scanCandidates 4 blob = []) →
        extractText row (.error e) = "") := by
  refine ⟨?_, ?_, ?_⟩
  · intro blob e
    by_cases hb : blob.isEmpty <;> simp [decodeAttributedBody, hb]
  · intro u
    simp [decodeAttributedBody]
  · intro row e htxt hcand
    rcases hb : row.attributedBody with _ | blob
    · simp [extractText, htxt, hb]
    · rcases hblob : blob with _ | ⟨b0, bs⟩
      · simp [extractText, htxt, hb, hblob]
      · have hscan : scanPrintable 4 blob = "" := by
          simp [scanPrintable, hcand blob hb]
        have hne : blob.isEmpty = false := by simp [hblob]
        simp [extractText, htxt, hb, decodeAttributedBody, hne, hscan]

/-! ### Helper lemmas: the completion client -/

theorem chatLoop_all_rateLimited (outcomes : Nat → ApiOutcome) (h : List Msg)
    (hout : ∀ n, outcomes n = .rateLimited false) :
    ∀ k a : Nat, 8 - a ≤ k → chatLoop outcomes h a = (RATE_LIMIT_FALLBACK, h) := by
  intro k
  induction k with
  | zero =>
    intro a ha
    rw [chatLoop.eq_def, hout]
    have h8 : 8 ≤ a := by omega
    simp [h8]
  | succ k ih =>
    intro a ha
    rw [chatLoop.eq_def, hout]
    by_cases h8 : 8 ≤ a
    · simp [h8]
    · simpa [h8] using ih (a + 1) (by omega)

theorem chatLoop_agree (outcomes outcomes' : Nat → ApiOutcome) (h : List Msg)
    (hag : ∀ n, 1 ≤ n → n ≤ 8 → outcomes n = outcomes' n) :
    ∀ k a : Nat, 8 - a ≤ k → 1 ≤ a → a ≤ 8 →
      chatLoop outcomes h a = chatLoop outcomes' h a := by
  intro k
  induction k with
  | zero =>
    intro a ha h1 h8
    have ha8 : a = 8 := by omega
    subst ha8
    conv_lhs => rw [chatLoop.eq_def]
    conv_rhs => rw [chatLoop.eq_def]
    rw [hag 8 (by omega) (by omega)]
    cases outcomes' 8 with
    | rateLimited q => cases q <;> simp
    | success c => rfl
    | authFailed => rfl
    | otherError => rfl
  | succ k ih =>
    intro a ha h1 h8
    conv_lhs => rw [chatLoop.eq_def]
    conv_rhs => rw [chatLoop.eq_def]
    rw [hag a h1 h8]
    cases houtc : outcomes' a with
    | rateLimited q =>
      cases q
      · by_cases hle : 8 ≤ a
        · simp [hle]
        · simpa [hle] using ih (a + 1) (by omega) (by omega) (by omega)
      · rfl
    | success c => rfl
    | authFailed => rfl
    | otherError => rfl

/-- The history `chatLoop` hands back: unchanged on every error path, the
trimmed history with the assistant turn appended on success. -/
theorem chatLoop_history (outcomes : Nat → ApiOutcome) (h : List Msg) :
    ∀ k a : Nat, 8 - a ≤ k →
      (chatLoop outcomes h a).2 = h ∨
      ∃ r, (chatLoop outcomes h a).2 =
        trimHistory (h ++ [⟨"assistant", r⟩]) MAX_CONTEXT_MESSAGES := by
  intro k
  induction k with
  | zero =>
    intro a ha
    rw [chatLoop.eq_def]
    cases outcomes a with
    | rateLimited q =>
      cases q
      · have h8 : 8 ≤ a := by omega
        simp [h8]
      · simp
    | success c => right; exact ⟨replyOf c, rfl⟩
    | authFailed => simp
    | otherError => simp
  | succ k ih =>
    intro a ha
    rw [chatLoop.eq_def]
    cases outcomes a with
    | rateLimited q =>
      cases q
      · by_cases h8 : 8 ≤ a
        · simp [h8]
        · simpa [h8] using ih (a + 1) (by omega)
      · simp
    | success c => right; exact ⟨replyOf c, rfl⟩
    | authFailed => simp
    | otherError => simp

/-! ### Claim theorems: the completion client -/

/-- **C7**: `chat` never propagates an API error: an unbroken stream of
retryable rate limits ends after the 8th attempt with the fixed rate-limit
fallback string, and the loop never consults outcomes beyond attempt 8; a
quota-exhausted rate limit, an authentication failure, and any other error
each return their fixed fallback string from the very first attempt; a
success returns the reply text. -/
theorem C7_chat_error_fallbacks :
    (∀ (outcomes : Nat → ApiOutcome) (h : List Msg) (ut : String),
        (∀ n, outcomes n = .rateLimited false) →
        (chat outcomes h ut).1 = RATE_LIMIT_FALLBACK) ∧
    (∀ (outcomes : Nat → ApiOutcome) (h : List Msg) (ut : String),
        outcomes 1 = .rateLimited true → (chat outcomes h ut).1 = QUOTA_FALLBACK) ∧
    (∀ (outcomes : Nat → ApiOutcome) (h : List Msg) (ut : String),
        outcomes 1 = .authFailed → (chat outcomes h ut).1 = AUTH_FALLBACK) ∧
    (∀ (outcomes : Nat → ApiOutcome) (h : List Msg) (ut : String),
        outcomes 1 = .otherError → (chat outcomes h ut).1 = OTHER_FALLBACK) ∧
    (∀ (outcomes : Nat → ApiOutcome) (h : List Msg) (ut : String) (c : Option String),
        outcomes 1 = .success c → (chat outcomes h ut).1 = replyOf c) ∧
    (∀ (outcomes outcomes' : Nat → ApiOutcome) (h : List Msg) (ut : String),
        (∀ n, 1 ≤ n → n ≤ 8 → outcomes n = outcomes' n) →
        chat outcomes h ut = chat outcomes' h ut) := by
  refine ⟨?_, ?_, ?_, ?_, ?_, ?_⟩
  · intro outcomes h ut hout
    rw [chat, chatLoop_all_rateLimited outcomes _ hout 8 1 (by omega)]
  · intro outcomes h ut h1
    rw [chat, chatLoop.eq_def, h1]
    simp
  · intro outcomes h ut h1
    rw [chat, chatLoop.eq_def, h1]
  · intro outcomes h ut h1
    rw [chat, chatLoop.eq_def, h1]
  · intro outcomes h ut c h1
    rw [chat, chatLoop.eq_def, h1]
  · intro outcomes outcomes' h ut hag
    rw [chat, chat]
    exact chatLoop_agree outcomes outcomes' _ hag 8 1 (by omega) (by omega) (by omega)

/-! ### Helper lemmas: history trimming -/

theorem trimHistory_cons_sys (m : Msg) (t : List Msg) (n : Nat)
    (h : m.role = "system") : trimHistory (m :: t) n = m :: keepLast t n := by
  simp [trimHistory, keepLast, h]

theorem trimHistory_cons_nonsys (m : Msg) (t : List Msg) (n : Nat)
    (h : ¬ m.role = "system") : trimHistory (m :: t) n = keepLast (m :: t) n := by
  simp [trimHistory, keepLast, h]

theorem keepLast_suffix (r : List Msg) (n : Nat) : keepLast r n <:+ r := by
  by_cases h : n < r.length
  · simp only [keepLast, if_pos h]
    exact List.drop_suffix _ _
  · simp only [keepLast, if_neg h]
    exact List.suffix_refl r

theorem keepLast_length_le (r : List Msg) (n : Nat) : (keepLast r n).length ≤ n := by
  by_cases h : n < r.length
  · simp only [keepLast, if_pos h, List.length_drop]
    omega
  · simp only [keepLast, if_neg h]
    omega

theorem histInv_of_suffix {l s : List Msg} (hinv : HistInv l) (hs : s <:+ l) :
    HistInv s := by
  intro m hm
  obtain ⟨pre, rfl⟩ := hs
  apply hinv
  have hms : m ∈ s := List.drop_subset 1 s hm
  cases pre with
  | nil => simpa using hm
  | cons p ps =>
    have : m ∈ ps ++ s := List.mem_append_right ps hms
    simpa using this

theorem histInv_append {l : List Msg} (hinv : HistInv l) (m : Msg)
    (hm : m.role ≠ "system") : HistInv (l ++ [m]) := by
  intro x hx
  cases l with
  | nil =>
    simp at hx
  | cons a t =>
    simp only [List.cons_append, List.drop_one, List.tail_cons] at hx
    rcases List.mem_append.mp hx with h | h
    · exact hinv x (by simpa using h)
    · simp at h
      subst h
      exact hm

theorem head?_append_some {l : List Msg} (l' : List Msg) {m : Msg}
    (h : l.head? = some m) : (l ++ l').head? = some m := by
  cases l with
  | nil => simp at h
  | cons a t => simpa using h

/-- **C8**: history invariants of `trim_history`, `set_system_message` and
`chat`: a leading system turn is always retained and stays first; at most
`MAX_CONTEXT_MESSAGES` (20) non-system turns survive a trim; the retained
non-system turns are a suffix of the previous ones (oldest dropped first) and
the whole trimmed history is a sublist of the old one (relative order
preserved); every history `chat` leaves behind satisfies the same bounds,
assuming the reachable-state invariant that system turns only stand at the
head. -/
theorem C8_history_bounded :
    (∀ (l : List Msg) (n : Nat), (nonSystem (trimHistory l n)).length ≤ n) ∧
    (∀ (l : List Msg) (n : Nat) (m : Msg), l.head? = some m → m.role = "system" →
        (trimHistory l n).head? = some m) ∧
    (∀ (l : List Msg) (n : Nat), HistInv l → HistInv (trimHistory l n)) ∧
    (∀ (l : List Msg) (n : Nat), nonSystem (trimHistory l n) <:+ nonSystem l) ∧
    (∀ (l : List Msg) (n : Nat), (trimHistory l n).Sublist l) ∧
    (∀ (outcomes : Nat → ApiOutcome) (h : List Msg) (ut : String), HistInv h →
        HistInv (chat outcomes h ut).2 ∧
        (nonSystem (chat outcomes h ut).2).length ≤ MAX_CONTEXT_MESSAGES ∧
        (∀ m, h.head? = some m → m.role = "system" →
            (chat outcomes h ut).2.head? = some m)) ∧
    (∀ (l : List Msg) (c : String),
        (setSystemMessage l c).head? = some ⟨"system", c⟩ ∧
        (HistInv l → HistInv (setSystemMessage l c))) := by
  have hlen : ∀ (l : List Msg) (n : Nat), (nonSystem (trimHistory l n)).length ≤ n := by
    intro l n
    cases l with
    | nil => simp [trimHistory, nonSystem]
    | cons m t =>
      by_cases hs : m.role = "system"
      · rw [trimHistory_cons_sys m t n hs]
        calc (nonSystem (m :: keepLast t n)).length
            = (nonSystem (keepLast t n)).length := by simp [nonSystem, List.filter_cons, hs]
          _ ≤ (keepLast t n).length := List.length_filter_le _ _
          _ ≤ n := keepLast_length_le t n
      · rw [trimHistory_cons_nonsys m t n hs]
        calc (nonSystem (keepLast (m :: t) n)).length
            ≤ (keepLast (m :: t) n).length := List.length_filter_le _ _
          _ ≤ n := keepLast_length_le (m :: t) n
  have hhead : ∀ (l : List Msg) (n : Nat) (m : Msg), l.head? = some m →
      m.role = "system" → (trimHistory l n).head? = some m := by
    intro l n m hm hrole
    cases l with
    | nil => simp at hm
    | cons a t =>
      have ham : a = m := by simpa using hm
      subst ham
      rw [trimHistory_cons_sys a t n hrole]
      rfl
  have hinvp : ∀ (l : List Msg) (n : Nat), HistInv l → HistInv (trimHistory l n) := by
    intro l n hinv
    cases l with
    | nil => simpa [trimHistory] using hinv
    | cons m t =>
      by_cases hs : m.role = "system"
      · rw [trimHistory_cons_sys m t n hs]
        intro x hx
        simp only [List.drop_one, List.tail_cons] at hx
        have hxt : x ∈ t := (keepLast_suffix t n).sublist.subset hx
        exact hinv x (by simpa using hxt)
      · rw [trimHistory_cons_nonsys m t n hs]
        exact histInv_of_suffix hinv (keepLast_suffix (m :: t) n)
  have hsuffix : ∀ (l : List Msg) (n : Nat),
      nonSystem (trimHistory l n) <:+ nonSystem l := by
    intro l n
    cases l with
    | nil => simp [trimHistory]
    | cons m t =>
      by_cases hs : m.role = "system"
      · rw [trimHistory_cons_sys m t n hs]
        have h1 : nonSystem (m :: keepLast t n) = nonSystem (keepLast t n) := by
          simp [nonSystem, List.filter_cons, hs]
        have h2 : nonSystem (m :: t) = nonSystem t := by
          simp [nonSystem, List.filter_cons, hs]
        rw [h1, h2]
        exact List.IsSuffix.filter _ (keepLast_suffix t n)
      · rw [trimHistory_cons_nonsys m t n hs]
        exact List.IsSuffix.filter _ (keepLast_suffix (m :: t) n)
  have hsub : ∀ (l : List Msg) (n : Nat), (trimHistory l n).Sublist l := by
    intro l n
    cases l with
    | nil => simp [trimHistory]
    | cons m t =>
      by_cases hs : m.role = "system"
      · rw [trimHistory_cons_sys m t n hs]
        exact List.Sublist.cons₂ m (keepLast_suffix t n).sublist
      · rw [trimHistory_cons_nonsys m t n hs]
        exact (keepLast_suffix (m :: t) n).sublist
  refine ⟨hlen, hhead, hinvp, hsuffix, hsub, ?_, ?_⟩
  · intro outcomes h ut hinv
    set h1 := trimHistory (h ++ [⟨"user", ut⟩]) MAX_CONTEXT_MESSAGES with hh1
    have hinv1 : HistInv h1 := hinvp _ _ (histInv_append hinv _ (by simp))
    have hcases := chatLoop_history outcomes h1 8 1 (by omega)
    have hchat2 : (chat outcomes h ut).2 = (chatLoop outcomes h1 1).2 := rfl
    refine ⟨?_, ?_, ?_⟩
    · rcases hcases with hc | ⟨r, hc⟩
      · rw [hchat2, hc]; exact hinv1
      · rw [hchat2, hc]
        exact hinvp _ _ (histInv_append hinv1 _ (by simp))
    · rcases hcases with hc | ⟨r, hc⟩
      · rw [hchat2, hc, hh1]
        exact hlen _ _
      · rw [hchat2, hc]
        exact hlen _ _
    · intro m hm hrole
      have hm1 : h1.head? = some m := hhead _ _ m (head?_append_some _ hm) hrole
      rcases hcases with hc | ⟨r, hc⟩
      · rw [hchat2, hc]; exact hm1
      · rw [hchat2, hc]
        exact hhead _ _ m (head?_append_some _ hm1) hrole
  · intro l c
    cases l with
    | nil =>
      refine ⟨rfl, fun _ => ?_⟩
      intro x hx
      simp [setSystemMessage] at hx
    | cons m t =>
      by_cases hs : m.role = "system"
      · refine ⟨by simp [setSystemMessage, hs], fun hinv => ?_⟩
        intro x hx
        simp only [setSystemMessage, if_pos hs, List.drop_one, List.tail_cons] at hx
        exact hinv x (by simpa using hx)
      · refine ⟨by simp [setSystemMessage, hs], fun hinv => ?_⟩
        intro x hx
        simp only [setSystemMessage, if_neg hs, List.drop_one, List.tail_cons] at hx
        rcases List.mem_cons.mp hx with rfl | hx'
        · exact hs
        · exact hinv x (by simpa using hx')

/-! ### Helper lemmas: the poll loop -/

theorem cursorLE_refl (o : Option Int) : cursorLE o o := by
  cases o <;> simp [cursorLE]

theorem runCycles_cons (s : BotState) (inp : CycleInput) (rest : List CycleInput) :
    runCycles s (inp :: rest) =
      ((runCycles (stepCycle s inp).1 rest).1,
        (stepCycle s inp).2 :: (runCycles (stepCycle s inp).1 rest).2) :=
  rfl

/-- Complete case analysis of one cycle: either nothing happens and the cursor
and cooldown are untouched, or the newest row's identifier strictly exceeds
the cursor, the cursor advances to it unconditionally, and the cooldown moves
to the pre-send timestamp exactly when the policy accepted. -/
theorem stepCycle_cases (s : BotState) (inp : CycleInput) :
    ((stepCycle s inp).2 = .idle ∧ (stepCycle s inp).1.lastSeen = s.lastSeen ∧
      (stepCycle s inp).1.lastReply = s.lastReply) ∨
    (∃ newest rest, inp.rows = newest :: rest ∧
      (∀ c, s.lastSeen = some c → c < newest.msg_id) ∧
      (stepCycle s inp).2 = .evaluated newest.msg_id
        (shouldRespond newest.msg_id newest.is_from_me
          (extractText newest inp.unarchive) s.lastReply inp.tEval) ∧
      (stepCycle s inp).1.lastSeen = some newest.msg_id ∧
      (stepCycle s inp).1.lastReply =
        (if shouldRespond newest.msg_id newest.is_from_me
            (extractText newest inp.unarchive) s.lastReply inp.tEval = true
         then inp.tSend else s.lastReply)) := by
  rcases hrows : inp.rows with _ | ⟨newest, rest⟩
  · left
    simp [stepCycle, hrows]
  · by_cases hseen : (match s.lastSeen with
        | some c => decide (newest.msg_id ≤ c)
        | none => false) = true
    · left
      simp [stepCycle, hrows, hseen]
    · right
      refine ⟨newest, rest, rfl, ?_, ?_⟩
      · intro c hc
        rw [hc] at hseen
        simpa using hseen
      · by_cases hresp : shouldRespond newest.msg_id newest.is_from_me
            (extractText newest inp.unarchive) s.lastReply inp.tEval = true
        · simp [stepCycle, hrows, hseen, hresp]
        · simp [stepCycle, hrows, hseen, hresp]

/-- If the policy accepted, the cooldown at evaluation time had elapsed. -/
theorem shouldRespond_cooldown {msgId fromMe : Int} {text : String} {lr now : ℤ}
    (h : shouldRespond msgId fromMe text lr now = true) :
    lr + COOLDOWN_SECONDS ≤ now := by
  unfold shouldRespond at h
  split_ifs at h with h1 h2 h3 h4
  omega

/-- Monotonicity, strict growth at each evaluation, and the running-maximum
shape of the Conversation Cursor along any schedule. -/
theorem runCycles_master (inps : List CycleInput) : ∀ s : BotState,
    cursorLE s.lastSeen (runCycles s inps).1.lastSeen ∧
    (∀ i ∈ evaluatedIds (runCycles s inps).2, ∀ c, s.lastSeen = some c → c < i) ∧
    List.Chain' (· < ·) (evaluatedIds (runCycles s inps).2) ∧
    ((evaluatedIds (runCycles s inps).2 = [] ∧
        (runCycles s inps).1.lastSeen = s.lastSeen) ∨
      (∃ m, (runCycles s inps).1.lastSeen = some m ∧
        m ∈ evaluatedIds (runCycles s inps).2 ∧
        ∀ i ∈ evaluatedIds (runCycles s inps).2, i ≤ m)) := by
  induction inps with
  | nil =>
    intro s
    exact ⟨cursorLE_refl _, by simp [runCycles, evaluatedIds],
      by simp [runCycles, evaluatedIds], Or.inl ⟨rfl, rfl⟩⟩
  | cons inp rest ih =>
    intro s
    obtain ⟨ih1, ih2, ih3, ih4⟩ := ih (stepCycle s inp).1
    rcases stepCycle_cases s inp with ⟨hev, hseen, -⟩ |
        ⟨newest, rest', hrows, hgt, hev, hseen, -⟩
    · have hids : evaluatedIds (runCycles s (inp :: rest)).2 =
          evaluatedIds (runCycles (stepCycle s inp).1 rest).2 := by
        rw [runCycles_cons, hev]
        rfl
      have hfin : (runCycles s (inp :: rest)).1 =
          (runCycles (stepCycle s inp).1 rest).1 := by
        rw [runCycles_cons]
      refine ⟨?_, ?_, ?_, ?_⟩
      · rw [hfin, ← hseen]; exact ih1
      · intro i hi c hc
        exact ih2 i (hids ▸ hi) c (hseen ▸ hc)
      · rw [hids]; exact ih3
      · rw [hfin, hids, ← hseen]; exact ih4
    · have hids : evaluatedIds (runCycles s (inp :: rest)).2 =
          newest.msg_id :: evaluatedIds (runCycles (stepCycle s inp).1 rest).2 := by
        rw [runCycles_cons, hev]
        rfl
      have hfin : (runCycles s (inp :: rest)).1 =
          (runCycles (stepCycle s inp).1 rest).1 := by
        rw [runCycles_cons]
      have hlt : ∀ i ∈ evaluatedIds (runCycles (stepCycle s inp).1 rest).2,
          newest.msg_id < i := fun i hi => ih2 i hi newest.msg_id hseen
      refine ⟨?_, ?_, ?_, ?_⟩
      · rw [hfin]
        have hle1 : cursorLE s.lastSeen (some newest.msg_id) := by
          cases hs : s.lastSeen with
          | none => trivial
          | some c => exact le_of_lt (hgt c hs)
        rw [← hseen] at hle1
        cases hs : s.lastSeen with
        | none => trivial
        | some c =>
          rw [hs] at hle1
          cases hfin2 : (runCycles (stepCycle s inp).1 rest).1.lastSeen with
          | none =>
            rw [hseen] at ih1
            rw [hfin2] at ih1
            exact ih1
          | some d =>
            rw [hseen, hfin2] at ih1
            have : newest.msg_id ≤ d := ih1
            have hcd : c < newest.msg_id := hgt c hs
            show c ≤ d
            omega
      · intro i hi c hc
        rw [hids] at hi
        rcases List.mem_cons.mp hi with rfl | hi'
        · exact hgt c hc
        · exact lt_trans (hgt c hc) (hlt i hi')
      · rw [hids]
        rw [List.chain'_cons']
        refine ⟨?_, ih3⟩
        intro y hy
        exact hlt y (List.mem_of_mem_head? hy)
      · rw [hfin, hids]
        rcases ih4 with ⟨hnil, hfin2⟩ | ⟨m, hfin2, hmem, hle⟩
        · right
          refine ⟨newest.msg_id, by rw [hfin2, hseen], List.mem_cons_self _ _, ?_⟩
          intro i hi
          rw [hnil] at hi
          rcases List.mem_cons.mp hi with rfl | hi'
          · exact le_refl _
          · simp at hi'
        · right
          refine ⟨m, hfin2, List.mem_cons_of_mem _ hmem, ?_⟩
          intro i hi
          rcases List.mem_cons.mp hi with rfl | hi'
          · exact le_of_lt (hlt m hmem)
          · exact hle i hi'

/-- No two reply timestamps along a schedule are closer than the cooldown. -/
theorem sendTimes_master (inps : List CycleInput) : ∀ (s : BotState) (t : ℤ),
    s.lastReply ≤ t → timesMono t inps = true →
    List.Pairwise (fun a b => a + COOLDOWN_SECONDS ≤ b) (sendTimes s inps) ∧
    (∀ x ∈ sendTimes s inps, s.lastReply + COOLDOWN_SECONDS ≤ x) := by
  induction inps with
  | nil =>
    intro s t _ _
    simp [sendTimes]
  | cons inp rest ih =>
    intro s t hrt hmono
    have hm := hmono
    simp only [timesMono, Bool.and_eq_true, decide_eq_true_eq] at hm
    obtain ⟨⟨ht1, ht2⟩, ht3⟩ := hm
    rcases stepCycle_cases s inp with ⟨hev, -, hrep⟩ |
        ⟨newest, rest', hrows, -, hev, -, hrep⟩
    · have hst : sendTimes s (inp :: rest) = sendTimes (stepCycle s inp).1 rest := by
        simp [sendTimes, hev]
      have hih := ih (stepCycle s inp).1 inp.tSend (by rw [hrep]; omega) ht3
      rw [hst]
      exact ⟨hih.1, fun x hx => by
        have := hih.2 x hx
        rw [hrep] at this
        exact this⟩
    · by_cases hresp : shouldRespond newest.msg_id newest.is_from_me
          (extractText newest inp.unarchive) s.lastReply inp.tEval = true
      · have hst : sendTimes s (inp :: rest) =
            inp.tSend :: sendTimes (stepCycle s inp).1 rest := by
          simp [sendTimes, hev, hresp]
        have hrep' : (stepCycle s inp).1.lastReply = inp.tSend := by
          rw [hrep, if_pos hresp]
        have hih := ih (stepCycle s inp).1 inp.tSend (by rw [hrep']) ht3
        have hcool : s.lastReply + COOLDOWN_SECONDS ≤ inp.tEval :=
          shouldRespond_cooldown hresp
        rw [hst]
        constructor
        · refine List.Pairwise.cons ?_ hih.1
          intro x hx
          have := hih.2 x hx
          rw [hrep'] at this
          exact this
        · intro x hx
          rcases List.mem_cons.mp hx with rfl | hx'
          · omega
          · have := hih.2 x hx'
            rw [hrep'] at this
            omega
      · have hst : sendTimes s (inp :: rest) = sendTimes (stepCycle s inp).1 rest := by
          simp [sendTimes, hev, hresp]
        have hrep' : (stepCycle s inp).1.lastReply = s.lastReply := by
          rw [hrep, if_neg hresp]
        have hih := ih (stepCycle s inp).1 inp.tSend (by rw [hrep']; omega) ht3
        rw [hst]
        exact ⟨hih.1, fun x hx => by
          have := hih.2 x hx
          rw [hrep'] at this
          exact this⟩

/-! ### Claim theorems: the poll loop -/

/-- **C1**: the Conversation Cursor never decreases; whenever a message is
evaluated its identifier strictly exceeds the previous cursor, it is the
newest fetched row's identifier, and the cursor is advanced to it whether or
not a reply follows; the evaluated identifiers along any schedule are strictly
increasing (so no identifier at or below the cursor is ever evaluated again);
and starting from an unset cursor, the cursor always equals the maximum
identifier evaluated so far (unset while none has been). -/
theorem C1_cursor_monotonicity :
    (∀ (s : BotState) (inp : CycleInput),
        cursorLE s.lastSeen (stepCycle s inp).1.lastSeen) ∧
    (∀ (s : BotState) (inp : CycleInput) (i : Int) (sent : Bool),
        (stepCycle s inp).2 = .evaluated i sent →
        (stepCycle s inp).1.lastSeen = some i ∧
        (∀ c, s.lastSeen = some c → c < i) ∧
        (inp.rows.head?).map Row.msg_id = some i) ∧
    (∀ (s : BotState) (inps : List CycleInput),
        List.Chain' (· < ·) (evaluatedIds (runCycles s inps).2)) ∧
    (∀ (d : Option Int) (t : ℤ) (inps : List CycleInput),
        (evaluatedIds (runCycles ⟨none, d, t⟩ inps).2 = [] ∧
          (runCycles ⟨none, d, t⟩ inps).1.lastSeen = none) ∨
        (∃ m, (runCycles ⟨none, d, t⟩ inps).1.lastSeen = some m ∧
          m ∈ evaluatedIds (runCycles ⟨none, d, t⟩ inps).2 ∧
          ∀ i ∈ evaluatedIds (runCycles ⟨none, d, t⟩ inps).2, i ≤ m)) := by
  refine ⟨?_, ?_, ?_, ?_⟩
  · intro s inp
    rcases stepCycle_cases s inp with ⟨-, hseen, -⟩ | ⟨newest, rest, -, hgt, -, hseen, -⟩
    · rw [hseen]; exact cursorLE_refl _
    · rw [hseen]
      cases hs : s.lastSeen with
      | none => trivial
      | some c => exact le_of_lt (hgt c hs)
  · intro s inp i sent hev
    rcases stepCycle_cases s inp with ⟨hev', -, -⟩ |
        ⟨newest, rest, hrows, hgt, hev', hseen, -⟩
    · rw [hev'] at hev; exact absurd hev (by simp)
    · rw [hev'] at hev
      have hi : newest.msg_id = i := by
        injection hev with h1 h2
      subst hi
      exact ⟨hseen, hgt, by rw [hrows]; rfl⟩
  · intro s inps
    exact (runCycles_master inps s).2.2.1
  · intro d t inps
    rcases (runCycles_master inps ⟨none, d, t⟩).2.2.2 with ⟨hnil, hfin⟩ | h
    · exact Or.inl ⟨hnil, hfin⟩
    · exact Or.inr h

/-- **C3**: along any schedule with a monotone clock, the timestamps of
attempted sends are pairwise at least `COOLDOWN_SECONDS` apart; a trigger
evaluated less than the cooldown after the last timestamp update is declined;
the Cooldown Timer is set to the pre-send clock value whenever a reply is
produced — independently of whether the send then succeeds, which the state
never consults. -/
theorem C3_cooldown_spacing (s0 : BotState) (t0 : ℤ) (inps : List CycleInput)
    (h0 : s0.lastReply ≤ t0) (hmono : timesMono t0 inps = true) :
    List.Pairwise (fun a b => a + COOLDOWN_SECONDS ≤ b) (sendTimes s0 inps) ∧
    (∀ (msgId fromMe : Int) (text : String) (lr now : ℤ),
        now - lr < COOLDOWN_SECONDS → shouldRespond msgId fromMe text lr now = false) ∧
    (∀ (s : BotState) (inp : CycleInput) (i : Int),
        (stepCycle s inp).2 = .evaluated i true →
        (stepCycle s inp).1.lastReply = inp.tSend) ∧
    (∀ (s : BotState) (inp : CycleInput) (b : Bool),
        stepCycle s { inp with sendOk := b } = stepCycle s inp) := by
  refine ⟨(sendTimes_master inps s0 t0 h0 hmono).1, ?_, ?_, ?_⟩
  · intro msgId fromMe text lr now hlt
    unfold shouldRespond
    split_ifs <;> rfl
  · intro s inp i hev
    rcases stepCycle_cases s inp with ⟨hev', -, -⟩ |
        ⟨newest, rest, -, -, hev', -, hrep⟩
    · rw [hev'] at hev; exact absurd hev (by simp)
    · rw [hev'] at hev
      injection hev with h1 h2
      rw [hrep, if_pos h2]
  · intro s inp b
    cases inp
    rfl

/-- Witness for the cooldown theorem: a two-cycle schedule in which both
cycles carry a fresh trigger and the clock moves 0 → 10 → 11 → 20 → 21;
both hypotheses hold by computation. -/
theorem C3_cooldown_spacing_witness :
    ((⟨none, none, 0⟩ : BotState).lastReply ≤ (0 : ℤ) ∧
      timesMono 0
        [⟨[⟨1, 0, some "@zbot hi", none⟩], .error "e", 10, 11, true⟩,
         ⟨[⟨2, 0, some "@zbot again", none⟩], .error "e", 20, 21, false⟩] = true) ∧
    (List.Pairwise (fun a b => a + COOLDOWN_SECONDS ≤ b)
        (sendTimes ⟨none, none, 0⟩
          [⟨[⟨1, 0, some "@zbot hi", none⟩], .error "e", 10, 11, true⟩,
           ⟨[⟨2, 0, some "@zbot again", none⟩], .error "e", 20, 21, false⟩]) ∧
      (∀ (msgId fromMe : Int) (text : String) (lr now : ℤ),
          now - lr < COOLDOWN_SECONDS →
          shouldRespond msgId fromMe text lr now = false) ∧
      (∀ (s : BotState) (inp : CycleInput) (i : Int),
          (stepCycle s inp).2 = .evaluated i true →
          (stepCycle s inp).1.lastReply = inp.tSend) ∧
      (∀ (s : BotState) (inp : CycleInput) (b : Bool),
          stepCycle s { inp with sendOk := b } = stepCycle s inp)) :=
  ⟨⟨by decide, by decide⟩,
    C3_cooldown_spacing ⟨none, none, 0⟩ 0
      [⟨[⟨1, 0, some "@zbot hi", none⟩], .error "e", 10, 11, true⟩,
       ⟨[⟨2, 0, some "@zbot again", none⟩], .error "e", 20, 21, false⟩]
      (by decide) (by decide)⟩

end ZBot

section SanityExamples
open ZBot
example : shouldRespond 1 0 "@zbot hello" 0 10 = true := by decide
example : shouldRespond 1 0 "@ZBot hello" 0 10 = true := by decide
example : shouldRespond 1 0 "@zbot hello" 0 3 = false := by decide
example : shouldRespond 1 0 "🤖 hi @zbot" 0 10 = false := by decide
example : shouldRespond 1 0 "" 0 10 = false := by decide
example : extractPrompt "@zbot hello" = "hello" := by decide
example : normalizePhone "9095551234" = some "+19095551234" := by decide
example : normalizePhone "+1 (909) 555-1234" = some "+19095551234" := by decide
example : normalizePhone "15551234" = some "+15551234" := by decide
example : normalizePhone "abc" = none := by decide
example : normalizePhone "1234567" = some "+1234567" := by decide
example : normalizePhone "123456" = none := by decide
example : pyMaxByLen "abcd" ["wxyz", "efghi"] = "efghi" := by decide
example : scanPrintable 4
    ([1] ++ "streamtyped".data.map Char.toNat ++ [0] ++ "HELLO THERE".data.map Char.toNat ++
     [2, 97, 98, 3] ++ "NSString".data.map Char.toNat ++ [4, 32, 32, 32, 5]) = "HELLO THERE" := by
  decide
example : extractText ⟨5, 0, some "  hi  ", none⟩ (.error "x") = "hi" := by decide
example : extractText ⟨5, 0, some "   ", some [72, 73, 74, 75]⟩ (.error "x") = "HIJK" := by decide
example : extractText ⟨5, 0, none, none⟩ (.error "x") = "" := by decide
example : decodeAttributedBody [72, 73, 74, 75] (.ok ⟨some " msg ", "obj"⟩) = "msg" := by decide
example : decodeAttributedBody [72, 73, 74, 75] (.ok ⟨some "  ", "(null)"⟩) = "HIJK" := by decide
example : decodeAttributedBody [72, 73, 74, 75] (.ok ⟨none, " real "⟩) = "real" := by decide
example : trimHistory [⟨"system", "s"⟩, ⟨"user", "a"⟩, ⟨"assistant", "b"⟩] 1 =
    [⟨"system", "s"⟩, ⟨"assistant", "b"⟩] := by decide
example : chat (fun _ => .rateLimited false) [] "hi" =
    (RATE_LIMIT_FALLBACK, [⟨"user", "hi"⟩]) := by
  simp only [chat]
  rw [chatLoop, chatLoop, chatLoop, chatLoop, chatLoop, chatLoop, chatLoop, chatLoop]
  norm_num
  decide
example : chat (fun _ => .success (some " ok ")) [] "hi" =
    ("ok", [⟨"user", "hi"⟩, ⟨"assistant", "ok"⟩]) := by
  simp only [chat]
  rw [chatLoop]
  norm_num
  decide
example :
    runCycles ⟨none, none, 0⟩
      [⟨[⟨5, 0, some "@zbot hi", none⟩], .error "e", 10, 11, true⟩,
       ⟨[⟨5, 0, some "@zbot hi", none⟩], .error "e", 12, 13, true⟩] =
    (⟨some 5, some 5, 11⟩,
      [.evaluated 5 true, .idle]) := by decide
end SanityExamples
